import Mathlib

/-!
Verification of the StackOne tool-discovery subsystem (stackone-ai-python).

Shallow embedding of `stackone_ai/toolset.py` and `stackone_ai/semantic_search.py`:
the discovery orchestrator (`search_tools`, `search_action_names`), the action-name
normalizer (`_normalize_action_name`), the connector-scope derivation, and the
semantic-search client convenience method.

Modelling conventions:
- Python `float` similarity scores are modelled as rationals (`ℚ`); only order
  comparisons are performed on them in the source.
- The remote ranker (`SemanticSearchClient.search`) is a network call; it is
  modelled as a function from the request payload to `Except` (either a
  `SemanticSearchError` or a parsed `SemanticSearchResponse`).
- Python `set` iteration order is unspecified; the single place the source
  iterates a set (the per-connector backfill loop) is modelled by an explicit
  `iterOrder` parameter applied to the canonical missing-connector list.
- Strings are treated as their character lists; Python's `str.lower` is
  modelled by ASCII lowercasing (all identifiers in play are ASCII), and the
  regex character classes `[a-z]`, `[a-z0-9]`, `\d` by the corresponding ASCII
  checks.  Action names are assumed newline-free (Python's `.` and `$` have
  newline special cases that never arise for these identifiers).
-/

namespace StackOneAI

/-- Single result from the semantic search API
(`SemanticSearchResult` in semantic_search.py). -/
structure SemanticSearchResult where
  action_name : String
  connector_key : String
  similarity_score : ℚ
  label : String
  description : String
deriving DecidableEq, Repr

/-- Response of the `/actions/search` endpoint
(`SemanticSearchResponse` in semantic_search.py). -/
structure SemanticSearchResponse where
  results : List SemanticSearchResult
  total_count : Nat
  query : String
deriving DecidableEq, Repr

/-- Error raised by the semantic search client (`SemanticSearchError`).
The message captures the error's identity so that "re-raised verbatim"
is expressible. -/
structure SemanticSearchError where
  message : String
deriving DecidableEq, Repr

/-- One request to the remote ranker: the payload of
`SemanticSearchClient.search(query, connector, top_k)`. -/
structure RankerCall where
  query : String
  connector : Option String
  top_k : Option Nat
deriving DecidableEq, Repr

/-- The remote ranker modelled as a fixed function of the request payload:
one `SemanticSearchClient.search` invocation either raises or returns a
parsed response. -/
def Ranker : Type :=
  RankerCall → Except SemanticSearchError SemanticSearchResponse

/-- The slice of a `StackOneTool` that the discovery subsystem reads:
its MCP name and (for multi-account fetches) the account it was fetched for.
Two fetches of the same catalog entry for different accounts yield distinct
tools with equal names. -/
structure StackOneTool where
  name : String
  description : String
  account_id : Option String
deriving DecidableEq, Repr

/-! ### String helpers (Python `str.lower`, `name.split("_")[0]`) -/

/-- ASCII lowercasing of one character (model of Python `str.lower` on the
ASCII identifiers used for connector keys and tool names). -/
def lowerChar (c : Char) : Char :=
  if c.toNat ≥ 65 ∧ c.toNat ≤ 90 then Char.ofNat (c.toNat + 32) else c

/-- Model of Python `s.lower()`. -/
def strLower (s : String) : String :=
  String.mk (s.data.map lowerChar)

/-- Model of Python `name.split("_")[0].lower()`: the (lowercased) token
before the first underscore, i.e. the connector a tool name belongs to. -/
def connectorOf (name : String) : String :=
  strLower (String.mk (name.data.takeWhile (fun c => c ≠ '_')))

/-- Deduplication keeping the first occurrence, with an accumulator of
already-seen elements. -/
def dedupFirstAux (seen : List String) : List String → List String
  | [] => []
  | x :: xs =>
    if x ∈ seen then dedupFirstAux seen xs
    else x :: dedupFirstAux (x :: seen) xs

/-- Duplicate-free list of a list's elements, first occurrences kept
(the canonical enumeration of a Python `set` built from a list). -/
def dedupFirst (l : List String) : List String :=
  dedupFirstAux [] l

/-- Modelled from the spec: `Tools.get_connectors` (stackone_ai/models.py is
not part of the provided sources; only its callers and tests are).  Per spec
§4.4 and the repository tests, it extracts the connector token (text before
the first `_`) from every fetched tool name, lowercased, returned as a set. -/
def getConnectors (tools : List StackOneTool) : List String :=
  dedupFirst (tools.map (fun t => connectorOf t.name))

/-! ### The action-name normalizer

`_VERSIONED_ACTION_RE = re.compile(r"^[a-z][a-z0-9]*_\d+(?:\.\d+)+_(.+)_global$")`

`_normalize_action_name` returns the first capture group on a match and the
input unchanged otherwise.  Because the leading token class excludes `_` and
must be followed by a literal `_`, and the version class (digits and dots)
likewise excludes `_`, the regex decomposes the input as: the text before the
first underscore (a `[a-z][a-z0-9]*` token), then the text up to the next
underscore (a `\d+(\.\d+)+` version), then a non-empty greedy remainder ending
in the literal suffix `_global`; the capture group is that remainder without
the suffix. -/

/-- Split a character list at its first `'_'`: `none` when there is none,
otherwise the parts strictly before and strictly after it. -/
def breakUnderscore : List Char → Option (List Char × List Char)
  | [] => none
  | c :: cs =>
    if c = '_' then some ([], cs)
    else
      match breakUnderscore cs with
      | none => none
      | some (a, b) => some (c :: a, b)

/-- Regex class `[a-z]`. -/
def isLowerAZ (c : Char) : Bool :=
  decide ('a' ≤ c ∧ c ≤ 'z')

/-- Regex class `[a-z0-9]`. -/
def isLowerAZ09 (c : Char) : Bool :=
  isLowerAZ c || c.isDigit

/-- The leading token of the versioned-action regex: `[a-z][a-z0-9]*`. -/
def connTokenOk : List Char → Bool
  | [] => false
  | c :: cs => isLowerAZ c && cs.all isLowerAZ09

/-- Split a character list on `'.'` (like Python `str.split(".")`:
adjacent dots give empty parts). -/
def splitOnDot : List Char → List (List Char)
  | [] => [[]]
  | c :: cs =>
    let r := splitOnDot cs
    if c = '.' then [] :: r
    else
      match r with
      | [] => [[c]]
      | p :: ps => (c :: p) :: ps

/-- The version token of the versioned-action regex: `\d+(\.\d+)+`
(at least two dot-separated non-empty digit runs, nothing else). -/
def versionOk (l : List Char) : Bool :=
  let parts := splitOnDot l
  2 ≤ parts.length && parts.all (fun p => !p.isEmpty && p.all Char.isDigit)

/-- The literal suffix `_global` of the versioned-action regex. -/
def globalSuffix : List Char := ['_', 'g', 'l', 'o', 'b', 'a', 'l']

/-- Character-level model of `_normalize_action_name`. -/
def normalizeChars (s : List Char) : List Char :=
  match breakUnderscore s with
  | none => s
  | some (t1, r1) =>
    if connTokenOk t1 then
      match breakUnderscore r1 with
      | none => s
      | some (t2, r2) =>
        if versionOk t2 && globalSuffix.isSuffixOf r2 && decide (7 < r2.length)
        then r2.take (r2.length - 7)
        else s
    else s

/-- Model of `_normalize_action_name` in toolset.py: strip the
connector+version prefix and the trailing `_global` of a versioned action
identifier, and return anything else unchanged. -/
def normalize_action_name (s : String) : String :=
  String.mk (normalizeChars s.data)

/-! ### Stable sorting

Python's `list.sort(key=k)` is a stable sort; `reverse=True` also preserves
the original order of elements whose keys compare equal, which is exactly a
stable ascending sort by the negated key.  A stable sort is uniquely
determined by its key, so any stable implementation models it; we use
insertion sort. -/

/-- Insert `x` (an element originally to the left of everything in the list)
into an ascending-by-`k` sorted list, before the first element whose key is
not smaller: equal-key elements of the list end up after `x`, which is the
stable order. -/
def insertAsc {α β : Type} [LinearOrder β] (k : α → β) (x : α) : List α → List α
  | [] => [x]
  | y :: ys => if k y < k x then y :: insertAsc k x ys else x :: y :: ys

/-- Stable ascending sort by key `k` (model of Python `list.sort(key=k)`). -/
def sortAsc {α β : Type} [LinearOrder β] (k : α → β) (l : List α) : List α :=
  l.foldr (insertAsc k) []

/-- Sort key modelling `sort(key=lambda r: r.similarity_score, reverse=True)`. -/
def negScore (r : SemanticSearchResult) : ℚ :=
  -r.similarity_score

/-! ### The discovery pipeline (toolset.py) -/

/-- `[r for r in results if r.similarity_score >= min_score]`
(search_action_names step "Filter by min_score"). -/
def scoreFiltered (min_score : ℚ) (rs : List SemanticSearchResult) :
    List SemanticSearchResult :=
  rs.filter (fun r => decide (min_score ≤ r.similarity_score))

/-- search_tools step 3: keep results whose lowercased connector key is an
available connector and whose score meets the floor. -/
def availFiltered (available : List String) (min_score : ℚ)
    (rs : List SemanticSearchResult) : List SemanticSearchResult :=
  rs.filter (fun r =>
    decide (strLower r.connector_key ∈ available) &&
    decide (min_score ≤ r.similarity_score))

/-- The inner loop of the per-connector backfill: append each extra result
that meets the score floor and whose raw action name is not already present,
stopping once `top_k` results are accumulated. -/
def mergeExtra (min_score : ℚ) (top_k : Nat) :
    List SemanticSearchResult → List SemanticSearchResult → List SemanticSearchResult
  | acc, [] => acc
  | acc, r :: rs =>
    if decide (min_score ≤ r.similarity_score) &&
        !(decide (r.action_name ∈ acc.map (fun fr => fr.action_name))) then
      let acc2 := acc ++ [r]
      if top_k ≤ acc2.length then acc2 else mergeExtra min_score top_k acc2 rs
    else mergeExtra min_score top_k acc rs

/-- The outer per-connector backfill loop: for each missing connector (in the
given iteration order), stop early once `top_k` results are accumulated,
otherwise issue one connector-restricted ranker call; a call that raises is
skipped (`except SemanticSearchError: continue`), a call that succeeds has its
results merged.  Also returns the trace of ranker calls issued. -/
def backfill (ranker : Ranker) (query : String) (min_score : ℚ) (top_k : Nat) :
    List SemanticSearchResult → List String →
    List SemanticSearchResult × List RankerCall
  | acc, [] => (acc, [])
  | acc, c :: cs =>
    if top_k ≤ acc.length then (acc, [])
    else
      let call : RankerCall := ⟨query, some c, some top_k⟩
      match ranker call with
      | .error _ =>
        let rest := backfill ranker query min_score top_k acc cs
        (rest.1, call :: rest.2)
      | .ok extra =>
        let rest := backfill ranker query min_score top_k
          (mergeExtra min_score top_k acc extra.results) cs
        (rest.1, call :: rest.2)

/-- search_tools steps 3–3b on a successful broad response: the connector and
score filter, then (when short of `top_k` and no explicit connector was
requested) the per-connector backfill followed by the stable re-sort.
Returns `(merged batch before the re-sort, batch after the conditional
re-sort, backfill ranker-call trace)`. -/
def stScoped (available : List String) (ranker : Ranker)
    (iterOrder : List String → List String) (query : String)
    (connector : Option String) (top_k : Nat) (min_score : ℚ)
    (results : List SemanticSearchResult) :
    List SemanticSearchResult × List SemanticSearchResult × List RankerCall :=
  let filtered0 := availFiltered available min_score results
  if decide (filtered0.length < top_k) && connector.isNone then
    let found := filtered0.map (fun r => strLower r.connector_key)
    let missing := available.filter (fun c => !(decide (c ∈ found)))
    let bf := backfill ranker query min_score top_k filtered0 (iterOrder missing)
    (bf.1, sortAsc negScore bf.1, bf.2)
  else
    (filtered0, filtered0, [])

/-- search_tools step "Deduplicate by normalized MCP name": keep the first
(highest-scoring, list already sorted) result per normalized name. -/
def dedupByNorm (seen : List String) :
    List SemanticSearchResult → List SemanticSearchResult
  | [] => []
  | r :: rs =>
    let n := normalize_action_name r.action_name
    if n ∈ seen then dedupByNorm seen rs
    else r :: dedupByNorm (n :: seen) rs

/-- search_action_names step "Normalize and deduplicate": like `dedupByNorm`
but each kept result is rebuilt with its normalized name
(`SemanticSearchResult(action_name=norm_name, ...)`). -/
def dedupReplace (seen : List String) :
    List SemanticSearchResult → List SemanticSearchResult
  | [] => []
  | r :: rs =>
    let n := normalize_action_name r.action_name
    if n ∈ seen then dedupReplace seen rs
    else { r with action_name := n } :: dedupReplace (n :: seen) rs

/-- The sort key of search_tools step 4: a matched tool's rank is the index
of its name in the deduplicated result list's normalized names
(`action_order` dict; every matched tool's name occurs, and `findIdx`
returns the list length — acting as the `inf` default — otherwise). -/
def toolRank (names : List String) (t : StackOneTool) : Nat :=
  names.findIdx (fun n => decide (n = t.name))

/-- `StackOneToolSet.search_tools`, with the externally-fetched catalog
(`fetch_tools` result), the remote ranker, the set-iteration order and the
local `tool_search` utility (from stackone_ai/models.py, outside the
discovery sources; `none` models `utility.get_tool("tool_search")` returning
nothing, `some f` models executing it with `(query, limit, minScore)` and
reading the matched names) supplied as parameters.  Returns the result
(`Except` models raising) paired with the trace of ranker calls issued. -/
def search_tools (allTools : List StackOneTool) (ranker : Ranker)
    (iterOrder : List String → List String)
    (toolSearch : Option (String → Nat → ℚ → List String))
    (query : String) (connector : Option String) (top_k : Nat) (min_score : ℚ)
    (fallback_to_local : Bool) :
    Except SemanticSearchError (List StackOneTool) × List RankerCall :=
  let available := getConnectors allTools
  if available.isEmpty then (.ok [], [])
  else
    let primary : RankerCall := ⟨query, connector, none⟩
    match ranker primary with
    | .error e =>
      if !fallback_to_local then (.error e, [primary])
      else
        match toolSearch with
        | some f =>
          let matched_names := f query (top_k * 3) min_score
          let filter_connectors :=
            match connector with
            | some c => [strLower c]
            | none => available
          let matched_tools := matched_names.filterMap (fun n =>
            if decide (connectorOf n ∈ filter_connectors) then
              allTools.reverse.find? (fun t => decide (t.name = n))
            else none)
          (.ok (matched_tools.take top_k), [primary])
        | none => (.ok allTools, [primary])
    | .ok response =>
      let st := stScoped available ranker iterOrder query connector top_k
        min_score response.results
      let deduped := (dedupByNorm [] st.2.1).take top_k
      if deduped.isEmpty then (.ok [], primary :: st.2.2)
      else
        let names := deduped.map (fun r => normalize_action_name r.action_name)
        let matched := allTools.filter (fun t => decide (t.name ∈ names))
        (.ok (sortAsc (toolRank names) matched), primary :: st.2.2)

/-- The score-and-connector filtered broad batch of search_action_names
(its `results` list right before the backfill decision). -/
def sanResults1 (connector_set : List String) (min_score : ℚ)
    (results : List SemanticSearchResult) : List SemanticSearchResult :=
  (scoreFiltered min_score results).filter
    (fun r => decide (strLower r.connector_key ∈ connector_set))

/-- search_action_names' account-scoped branch on a successful broad
response: score filter, connector filter, conditional backfill and stable
re-sort.  Returns `(merged batch before the re-sort, batch after the
conditional re-sort, backfill ranker-call trace)`. -/
def sanScoped (available : List String) (ranker : Ranker)
    (iterOrder : List String → List String) (query : String)
    (connector : Option String) (top_k : Nat) (min_score : ℚ)
    (results : List SemanticSearchResult) :
    List SemanticSearchResult × List SemanticSearchResult × List RankerCall :=
  let connector_set := dedupFirst (available.map strLower)
  let results1 := sanResults1 connector_set min_score results
  if decide (results1.length < top_k) && connector.isNone then
    let found := results1.map (fun r => strLower r.connector_key)
    let missing := connector_set.filter (fun c => !(decide (c ∈ found)))
    let bf := backfill ranker query min_score top_k results1 (iterOrder missing)
    (bf.1, sortAsc negScore bf.1, bf.2)
  else
    (results1, results1, [])

/-- `StackOneToolSet.search_action_names`.  `scope` is `some catalog` when a
non-empty effective account-id list made the method fetch tools to resolve
available connectors, `none` otherwise.  Returns the result (always `.ok`:
the method never re-raises) paired with the trace of ranker calls issued. -/
def search_action_names (scope : Option (List StackOneTool)) (ranker : Ranker)
    (iterOrder : List String → List String) (query : String)
    (connector : Option String) (top_k : Nat) (min_score : ℚ) :
    Except SemanticSearchError (List SemanticSearchResult) × List RankerCall :=
  let availableOpt : Option (List String) :=
    match scope with
    | some tools => some (getConnectors tools)
    | none => none
  match availableOpt with
  | some available =>
    if available.isEmpty then (.ok [], [])
    else
      let primary : RankerCall := ⟨query, connector, none⟩
      match ranker primary with
      | .error _ => (.ok [], [primary])
      | .ok response =>
        let st := sanScoped available ranker iterOrder query connector top_k
          min_score response.results
        (.ok ((dedupReplace [] st.2.1).take top_k), primary :: st.2.2)
  | none =>
    let primary : RankerCall := ⟨query, connector, some top_k⟩
    match ranker primary with
    | .error _ => (.ok [], [primary])
    | .ok response =>
      let results0 := scoreFiltered min_score response.results
      (.ok ((dedupReplace [] results0).take top_k), [primary])

/-- `SemanticSearchClient.search_action_names` (semantic_search.py): one
`search` call, whose error propagates, then the names of the results meeting
the score floor, in response order. -/
def client_search_action_names (ranker : Ranker) (query : String)
    (connector : Option String) (top_k : Option Nat) (min_score : ℚ) :
    Except SemanticSearchError (List String) :=
  match ranker ⟨query, connector, top_k⟩ with
  | .error e => .error e
  | .ok resp =>
    .ok ((resp.results.filter
      (fun r => decide (min_score ≤ r.similarity_score))).map
      (fun r => r.action_name))

/-! ### Helper lemmas: lowercasing -/

theorem toNat_lowerChar_of_upper {c : Char} (h : c.toNat ≥ 65 ∧ c.toNat ≤ 90) :
    (lowerChar c).toNat = c.toNat + 32 := by
  unfold lowerChar
  rw [if_pos h]
  rw [Char.ofNat, dif_pos (Or.inl (by omega : c.toNat + 32 < 0xd800))]
  rfl

theorem lowerChar_lowerChar (c : Char) : lowerChar (lowerChar c) = lowerChar c := by
  by_cases h : c.toNat ≥ 65 ∧ c.toNat ≤ 90
  · have hl : (lowerChar c).toNat = c.toNat + 32 := toNat_lowerChar_of_upper h
    have h2 : ¬((lowerChar c).toNat ≥ 65 ∧ (lowerChar c).toNat ≤ 90) := by omega
    generalize hg : lowerChar c = d at h2 ⊢
    rw [lowerChar, if_neg h2]
  · have hc : lowerChar c = c := by rw [lowerChar, if_neg h]
    rw [hc, hc]

theorem strLower_strLower (s : String) : strLower (strLower s) = strLower s := by
  have hf : lowerChar ∘ lowerChar = lowerChar := funext lowerChar_lowerChar
  simp [strLower, List.map_map, hf]

/-! ### Helper lemmas: first-occurrence deduplication -/

theorem mem_dedupFirstAux {a : String} {seen l : List String} :
    a ∈ dedupFirstAux seen l ↔ a ∈ l ∧ a ∉ seen := by
  induction l generalizing seen with
  | nil => simp [dedupFirstAux]
  | cons x xs ih =>
    simp only [dedupFirstAux]
    split
    · rename_i hx
      rw [ih]
      simp only [List.mem_cons]
      constructor
      · rintro ⟨h1, h2⟩
        exact ⟨Or.inr h1, h2⟩
      · rintro ⟨rfl | h1, h2⟩
        · exact absurd hx h2
        · exact ⟨h1, h2⟩
    · rename_i hx
      rw [List.mem_cons, ih]
      simp only [List.mem_cons]
      constructor
      · rintro (rfl | ⟨h1, h2⟩)
        · exact ⟨Or.inl rfl, hx⟩
        · exact ⟨Or.inr h1, fun hs => h2 (Or.inr hs)⟩
      · rintro ⟨h1 | h1, h2⟩
        · exact Or.inl h1
        · by_cases hax : a = x
          · exact Or.inl hax
          · exact Or.inr ⟨h1, fun hor => hor.elim hax h2⟩

theorem mem_dedupFirst {a : String} {l : List String} :
    a ∈ dedupFirst l ↔ a ∈ l := by
  simp [dedupFirst, mem_dedupFirstAux]

/-! ### Helper lemmas: the stable sort -/

theorem insertAsc_perm {α β : Type} [LinearOrder β] (k : α → β) (x : α)
    (l : List α) : List.Perm (insertAsc k x l) (x :: l) := by
  induction l with
  | nil => exact List.Perm.refl _
  | cons y ys ih =>
    simp only [insertAsc]
    split
    · exact (ih.cons y).trans (List.Perm.swap x y ys)
    · exact List.Perm.refl _

theorem sortAsc_perm {α β : Type} [LinearOrder β] (k : α → β) (l : List α) :
    List.Perm (sortAsc k l) l := by
  induction l with
  | nil => exact List.Perm.refl _
  | cons x xs ih => exact (insertAsc_perm k x (sortAsc k xs)).trans (ih.cons x)

theorem insertAsc_pairwise {α β : Type} [LinearOrder β] {k : α → β} {x : α}
    {l : List α} (h : l.Pairwise (fun a b => k a ≤ k b)) :
    (insertAsc k x l).Pairwise (fun a b => k a ≤ k b) := by
  induction l with
  | nil => simp [insertAsc]
  | cons y ys ih =>
    rcases List.pairwise_cons.mp h with ⟨hy, hys⟩
    simp only [insertAsc]
    split
    · rename_i hlt
      refine List.pairwise_cons.mpr ⟨fun a ha => ?_, ih hys⟩
      rcases List.mem_cons.mp ((insertAsc_perm k x ys).mem_iff.mp ha) with rfl | h1
      · exact le_of_lt hlt
      · exact hy a h1
    · rename_i hnlt
      refine List.pairwise_cons.mpr ⟨fun a ha => ?_, h⟩
      rcases List.mem_cons.mp ha with rfl | h1
      · exact not_lt.mp hnlt
      · exact le_trans (not_lt.mp hnlt) (hy a h1)

theorem sortAsc_pairwise {α β : Type} [LinearOrder β] (k : α → β) (l : List α) :
    (sortAsc k l).Pairwise (fun a b => k a ≤ k b) := by
  induction l with
  | nil => simp [sortAsc]
  | cons x xs ih => exact insertAsc_pairwise ih

theorem insertAsc_filter {α β : Type} [LinearOrder β] {k : α → β} (p : α → Bool)
    (x : α) (l : List α)
    (hx : p x = true → ∀ y ∈ l, p y = true → k y = k x) :
    (insertAsc k x l).filter p =
      if p x = true then x :: l.filter p else l.filter p := by
  induction l with
  | nil => cases hpx : p x <;> simp [insertAsc, hpx]
  | cons y ys ih =>
    have ih2 := ih (fun hpx z hz hpz => hx hpx z (List.mem_cons_of_mem _ hz) hpz)
    simp only [insertAsc]
    split
    · rename_i hlt
      cases hpx : p x with
      | true =>
        have hpy : p y = false := by
          cases hy : p y
          · rfl
          · exfalso
            have he := hx hpx y (List.mem_cons_self y ys) hy
            rw [he] at hlt
            exact lt_irrefl _ hlt
        simp [List.filter_cons, hpy, ih2, hpx]
      | false =>
        cases hpy : p y <;> simp [List.filter_cons, ih2, hpx, hpy]
    · cases hpx : p x <;> simp [List.filter_cons, hpx]

theorem sortAsc_filter {α β : Type} [LinearOrder β] {k : α → β} (p : α → Bool)
    (l : List α) (hp : ∀ a b, p a = true → p b = true → k a = k b) :
    (sortAsc k l).filter p = l.filter p := by
  induction l with
  | nil => rfl
  | cons x xs ih =>
    have hs : sortAsc k (x :: xs) = insertAsc k x (sortAsc k xs) := rfl
    rw [hs, insertAsc_filter p x (sortAsc k xs)
      (fun hpx y _ hpy => hp y x hpy hpx), ih, List.filter_cons]

/-! ### Helper lemmas: filters, dedup, backfill -/

theorem mem_scoreFiltered {m : ℚ} {r : SemanticSearchResult}
    {rs : List SemanticSearchResult} :
    r ∈ scoreFiltered m rs ↔ r ∈ rs ∧ m ≤ r.similarity_score := by
  simp [scoreFiltered]

theorem mem_availFiltered {available : List String} {m : ℚ}
    {r : SemanticSearchResult} {rs : List SemanticSearchResult} :
    r ∈ availFiltered available m rs ↔
      r ∈ rs ∧ strLower r.connector_key ∈ available ∧ m ≤ r.similarity_score := by
  simp [availFiltered, and_assoc]

theorem mem_sanResults1 {cset : List String} {m : ℚ}
    {r : SemanticSearchResult} {rs : List SemanticSearchResult} :
    r ∈ sanResults1 cset m rs ↔
      r ∈ rs ∧ m ≤ r.similarity_score ∧ strLower r.connector_key ∈ cset := by
  simp [sanResults1, mem_scoreFiltered, and_assoc]

/-- The result a `search_action_names` dedup step emits for a kept raw
result: same record, name normalized. -/
def normResult (r : SemanticSearchResult) : SemanticSearchResult :=
  { r with action_name := normalize_action_name r.action_name }

theorem dedupByNorm_sublist (seen : List String)
    (l : List SemanticSearchResult) : (dedupByNorm seen l).Sublist l := by
  induction l generalizing seen with
  | nil => simp [dedupByNorm]
  | cons r rs ih =>
    simp only [dedupByNorm]
    split
    · exact (ih seen).cons r
    · exact (ih _).cons₂ r

theorem dedupReplace_sublist (seen : List String)
    (l : List SemanticSearchResult) :
    (dedupReplace seen l).Sublist (l.map normResult) := by
  induction l generalizing seen with
  | nil => simp [dedupReplace]
  | cons r rs ih =>
    simp only [dedupReplace, List.map_cons]
    split
    · exact (ih seen).cons (normResult r)
    · exact (ih _).cons₂ (normResult r)

theorem dedupReplace_names_nodup (seen : List String)
    (l : List SemanticSearchResult) :
    ((dedupReplace seen l).map (fun r => r.action_name)).Nodup ∧
      ∀ n ∈ (dedupReplace seen l).map (fun r => r.action_name), n ∉ seen := by
  induction l generalizing seen with
  | nil => simp [dedupReplace]
  | cons r rs ih =>
    simp only [dedupReplace]
    split
    · rename_i hmem
      exact ih seen
    · rename_i hmem
      rcases ih (normalize_action_name r.action_name :: seen) with ⟨h1, h2⟩
      simp only [List.map_cons]
      constructor
      · refine List.nodup_cons.mpr ⟨fun hc => ?_, h1⟩
        have := h2 _ hc
        simp at this
      · intro n hn
        rcases List.mem_cons.mp hn with rfl | hn
        · exact hmem
        · exact fun hs => h2 n hn (List.mem_cons_of_mem _ hs)

theorem dedupByNorm_norm_nodup (seen : List String)
    (l : List SemanticSearchResult) :
    ((dedupByNorm seen l).map
        (fun r => normalize_action_name r.action_name)).Nodup ∧
      ∀ n ∈ (dedupByNorm seen l).map
        (fun r => normalize_action_name r.action_name), n ∉ seen := by
  induction l generalizing seen with
  | nil => simp [dedupByNorm]
  | cons r rs ih =>
    simp only [dedupByNorm]
    split
    · rename_i hmem
      exact ih seen
    · rename_i hmem
      rcases ih (normalize_action_name r.action_name :: seen) with ⟨h1, h2⟩
      simp only [List.map_cons]
      constructor
      · refine List.nodup_cons.mpr ⟨fun hc => ?_, h1⟩
        have := h2 _ hc
        simp at this
      · intro n hn
        rcases List.mem_cons.mp hn with rfl | hn
        · exact hmem
        · exact fun hs => h2 n hn (List.mem_cons_of_mem _ hs)

theorem mergeExtra_mem {m : ℚ} {k : Nat} {acc rs : List SemanticSearchResult}
    {r : SemanticSearchResult} (h : r ∈ mergeExtra m k acc rs) :
    r ∈ acc ∨ (r ∈ rs ∧ m ≤ r.similarity_score) := by
  induction rs generalizing acc with
  | nil =>
    simp only [mergeExtra] at h
    exact Or.inl h
  | cons s ss ih =>
    simp only [mergeExtra] at h
    split at h
    · rename_i hcond
      have hscore : m ≤ s.similarity_score := by
        have := (Bool.and_eq_true _ _).mp hcond
        exact of_decide_eq_true this.1
      split at h
      · rcases List.mem_append.mp h with h1 | h1
        · exact Or.inl h1
        · simp only [List.mem_singleton] at h1
          subst h1
          exact Or.inr ⟨List.mem_cons_self _ _, hscore⟩
      · rcases ih h with h1 | ⟨h2, h3⟩
        · rcases List.mem_append.mp h1 with h4 | h4
          · exact Or.inl h4
          · simp only [List.mem_singleton] at h4
            subst h4
            exact Or.inr ⟨List.mem_cons_self _ _, hscore⟩
        · exact Or.inr ⟨List.mem_cons_of_mem _ h2, h3⟩
    · rcases ih h with h1 | ⟨h2, h3⟩
      · exact Or.inl h1
      · exact Or.inr ⟨List.mem_cons_of_mem _ h2, h3⟩

theorem backfill_mem {ranker : Ranker} {q : String} {m : ℚ} {k : Nat}
    {acc : List SemanticSearchResult} {cs : List String}
    {r : SemanticSearchResult} (h : r ∈ (backfill ranker q m k acc cs).1) :
    r ∈ acc ∨ ∃ c ∈ cs, ∃ resp, ranker ⟨q, some c, some k⟩ = .ok resp ∧
      r ∈ resp.results ∧ m ≤ r.similarity_score := by
  induction cs generalizing acc with
  | nil =>
    simp only [backfill] at h
    exact Or.inl h
  | cons c cs ih =>
    simp only [backfill] at h
    split at h
    · exact Or.inl h
    · rcases hr : ranker ⟨q, some c, some k⟩ with e | extra
      all_goals simp only [hr] at h
      · rcases ih h with h1 | ⟨c2, hc2, resp, hresp, hmem, hsc⟩
        · exact Or.inl h1
        · exact Or.inr ⟨c2, List.mem_cons_of_mem _ hc2, resp, hresp, hmem, hsc⟩
      · rcases ih h with h1 | ⟨c2, hc2, resp, hresp, hmem, hsc⟩
        · rcases mergeExtra_mem h1 with h2 | ⟨h3, h4⟩
          · exact Or.inl h2
          · exact Or.inr ⟨c, List.mem_cons_self _ _, extra, hr, h3, h4⟩
        · exact Or.inr ⟨c2, List.mem_cons_of_mem _ hc2, resp, hresp, hmem, hsc⟩

/-! ### Lemmas about the normalizer decomposition -/

theorem breakUnderscore_append {a b : List Char} (h : ('_' : Char) ∉ a) :
    breakUnderscore (a ++ '_' :: b) = some (a, b) := by
  induction a with
  | nil => simp [breakUnderscore]
  | cons c cs ih =>
    have hc : c ≠ '_' := fun he => h (he ▸ List.mem_cons_self c cs)
    have hcs : ('_' : Char) ∉ cs := fun hm => h (List.mem_cons_of_mem c hm)
    simp only [List.cons_append, breakUnderscore, if_neg hc, List.append_eq,
      ih hcs]

theorem breakUnderscore_eq_some {l a b : List Char}
    (h : breakUnderscore l = some (a, b)) :
    l = a ++ '_' :: b ∧ ('_' : Char) ∉ a := by
  induction l generalizing a b with
  | nil => simp [breakUnderscore] at h
  | cons c cs ih =>
    simp only [breakUnderscore] at h
    split at h
    · rename_i hc
      subst hc
      simp only [Option.some.injEq, Prod.mk.injEq] at h
      rcases h with ⟨rfl, rfl⟩
      exact ⟨rfl, by simp⟩
    · rename_i hc
      rcases hbu : breakUnderscore cs with _ | ⟨a2, b2⟩
      · rw [hbu] at h
        simp at h
      · rw [hbu] at h
        simp only [Option.some.injEq, Prod.mk.injEq] at h
        rcases h with ⟨rfl, rfl⟩
        rcases ih hbu with ⟨h1, h2⟩
        refine ⟨by simp [h1], fun hm => ?_⟩
        rcases List.mem_cons.mp hm with h3 | h3
        · exact hc h3.symm
        · exact h2 h3

theorem connTokenOk_not_underscore {t : List Char} (h : connTokenOk t = true) :
    ('_' : Char) ∉ t := by
  intro hm
  cases t with
  | nil => simp at hm
  | cons c cs =>
    simp only [connTokenOk, Bool.and_eq_true] at h
    rcases h with ⟨h1, h2⟩
    rcases List.mem_cons.mp hm with h3 | h3
    · rw [← h3] at h1
      exact absurd h1 (by decide)
    · have := (List.all_eq_true.mp h2) _ h3
      exact absurd this (by decide)

theorem splitOnDot_ne_nil (l : List Char) : splitOnDot l ≠ [] := by
  cases l with
  | nil => simp [splitOnDot]
  | cons c cs =>
    simp only [splitOnDot]
    split
    · simp
    · split <;> simp

theorem mem_splitOnDot {c : Char} {l : List Char} (h : c ∈ l) :
    c = '.' ∨ ∃ p ∈ splitOnDot l, c ∈ p := by
  induction l with
  | nil => simp at h
  | cons d ds ih =>
    simp only [splitOnDot]
    split
    · rename_i hd
      rcases List.mem_cons.mp h with rfl | h2
      · exact Or.inl hd
      · rcases ih h2 with h3 | ⟨p, hp, hcp⟩
        · exact Or.inl h3
        · exact Or.inr ⟨p, List.mem_cons_of_mem _ hp, hcp⟩
    · rename_i hd
      rcases hr : splitOnDot ds with _ | ⟨p0, ps⟩
      · exact absurd hr (splitOnDot_ne_nil ds)
      · rcases List.mem_cons.mp h with rfl | h2
        · exact Or.inr ⟨c :: p0, List.mem_cons_self _ _, List.mem_cons_self _ _⟩
        · rcases ih h2 with h3 | ⟨p, hp, hcp⟩
          · exact Or.inl h3
          · rw [hr] at hp
            rcases List.mem_cons.mp hp with rfl | h4
            · exact Or.inr ⟨d :: p, List.mem_cons_self _ _,
                List.mem_cons_of_mem _ hcp⟩
            · exact Or.inr ⟨p, List.mem_cons_of_mem _ h4, hcp⟩

theorem versionOk_not_underscore {t : List Char} (h : versionOk t = true) :
    ('_' : Char) ∉ t := by
  intro hm
  rcases mem_splitOnDot hm with h1 | ⟨p, hp, hcp⟩
  · exact absurd h1 (by decide)
  · simp only [versionOk, Bool.and_eq_true] at h
    have h2 := (List.all_eq_true.mp h.2) _ hp
    rcases (Bool.and_eq_true _ _).mp h2 with ⟨_, h3⟩
    have hd := (List.all_eq_true.mp h3) _ hcp
    exact absurd hd (by decide)

theorem normalizeChars_strip {t1 ver mid : List Char}
    (h1 : connTokenOk t1 = true) (h2 : versionOk ver = true) (h3 : mid ≠ []) :
    normalizeChars (t1 ++ '_' :: (ver ++ '_' :: (mid ++ globalSuffix))) = mid := by
  have hb1 : breakUnderscore (t1 ++ '_' :: (ver ++ '_' :: (mid ++ globalSuffix))) =
      some (t1, ver ++ '_' :: (mid ++ globalSuffix)) :=
    breakUnderscore_append (connTokenOk_not_underscore h1)
  have hb2 : breakUnderscore (ver ++ '_' :: (mid ++ globalSuffix)) =
      some (ver, mid ++ globalSuffix) :=
    breakUnderscore_append (versionOk_not_underscore h2)
  have hlen : (mid ++ globalSuffix).length = mid.length + 7 := by
    simp [globalSuffix]
  have hmidpos : 0 < mid.length := List.length_pos.mpr h3
  have hsuf : globalSuffix.isSuffixOf (mid ++ globalSuffix) = true :=
    List.isSuffixOf_iff_suffix.mpr (List.suffix_append _ _)
  have hcond : (versionOk ver && globalSuffix.isSuffixOf (mid ++ globalSuffix) &&
      decide (7 < (mid ++ globalSuffix).length)) = true := by
    rw [h2, hsuf]
    simp only [Bool.true_and, decide_eq_true_eq]
    rw [hlen]
    omega
  simp only [normalizeChars, hb1, h1, if_true, hb2, hcond]
  rw [hlen]
  simp only [Nat.add_sub_cancel]
  exact List.take_left _ _

theorem normalizeChars_unchanged {s : List Char}
    (h : ∀ t1 ver mid : List Char, connTokenOk t1 = true → versionOk ver = true →
      mid ≠ [] → s ≠ t1 ++ '_' :: (ver ++ '_' :: (mid ++ globalSuffix))) :
    normalizeChars s = s := by
  unfold normalizeChars
  rcases hb1 : breakUnderscore s with _ | ⟨t1, r1⟩
  · rfl
  · rcases breakUnderscore_eq_some hb1 with ⟨hs1, hn1⟩
    dsimp only
    by_cases h1 : connTokenOk t1 = true
    · rw [if_pos h1]
      rcases hb2 : breakUnderscore r1 with _ | ⟨t2, r2⟩
      · rfl
      · rcases breakUnderscore_eq_some hb2 with ⟨hs2, hn2⟩
        dsimp only
        by_cases hcond : (versionOk t2 && globalSuffix.isSuffixOf r2 &&
            decide (7 < r2.length)) = true
        · exfalso
          rcases (Bool.and_eq_true _ _).mp hcond with ⟨hab, hc⟩
          rcases (Bool.and_eq_true _ _).mp hab with ⟨hva, hsuf⟩
          rcases List.isSuffixOf_iff_suffix.mp hsuf with ⟨mid, hmid⟩
          have hlen : 7 < r2.length := of_decide_eq_true hc
          have hmidne : mid ≠ [] := by
            intro he
            rw [he] at hmid
            simp only [List.nil_append] at hmid
            rw [← hmid] at hlen
            simp [globalSuffix] at hlen
          exact h t1 t2 mid h1 hva hmidne (by rw [hs1, hs2, ← hmid])
        · rw [if_neg hcond]
    · rw [if_neg h1]

/-! ### C6: `_normalize_action_name` -/

/-- C6 counterexample: the versioned-action regex does not compare the two
connector tokens, so an identifier whose two connector tokens differ is
still rewritten — `workday_1.0.0_bamboohr_create_global` becomes
`bamboohr_create` instead of being returned unchanged as the claim states. -/
theorem c6_normalizer_counterexample :
    normalize_action_name "workday_1.0.0_bamboohr_create_global" =
        "bamboohr_create" ∧
      normalize_action_name "workday_1.0.0_bamboohr_create_global" ≠
        "workday_1.0.0_bamboohr_create_global" := by
  constructor
  · rfl
  · decide

/-- C6 (amended): `_normalize_action_name` is a pure function that maps every
identifier of the shape `{token}_{version}_{middle}_global` — `token` a
`[a-z][a-z0-9]*` token, `version` a dotted numeric string, `middle` non-empty,
with no requirement that `token` recur inside `middle` — to `{middle}`, and
returns every identifier not of that shape unchanged.  (The original claim's
versioned shape with equal connector tokens is the special case
`middle = {connector}_{action}`.) -/
theorem c6_normalizer_amended :
    (∀ t1 ver mid : List Char, connTokenOk t1 = true → versionOk ver = true →
      mid ≠ [] →
      normalize_action_name
          (String.mk (t1 ++ '_' :: (ver ++ '_' :: (mid ++ globalSuffix)))) =
        String.mk mid) ∧
    (∀ s : String, (∀ t1 ver mid : List Char, connTokenOk t1 = true →
        versionOk ver = true → mid ≠ [] →
        s.data ≠ t1 ++ '_' :: (ver ++ '_' :: (mid ++ globalSuffix))) →
      normalize_action_name s = s) := by
  constructor
  · intro t1 ver mid h1 h2 h3
    show String.mk (normalizeChars _) = _
    rw [normalizeChars_strip h1 h2 h3]
  · intro s hs
    show String.mk (normalizeChars s.data) = s
    rw [normalizeChars_unchanged hs]

/-- Witness for C6 (amended): both conjuncts applied at concrete inputs —
the documented example `calendly_1.0.0_calendly_create_scheduling_link_global`
strips to `calendly_create_scheduling_link`, and the underscore-free
identifier `b` is unchanged. -/
theorem c6_normalizer_amended_witness :
    normalize_action_name
        "calendly_1.0.0_calendly_create_scheduling_link_global" =
      "calendly_create_scheduling_link" ∧
    normalize_action_name "b" = "b" := by
  constructor
  · exact c6_normalizer_amended.1 "calendly".data "1.0.0".data
      "calendly_create_scheduling_link".data (by decide) (by decide) (by decide)
  · refine c6_normalizer_amended.2 "b" ?_
    intro t1 ver mid h1 h2 h3 heq
    have hlen := congrArg List.length heq
    simp [globalSuffix] at hlen
    omega

theorem isEmpty_false_of_ne_nil {l : List String} (h : l ≠ []) :
    l.isEmpty = false := by
  cases hh : l.isEmpty
  · rfl
  · exact absurd (List.isEmpty_iff.mp hh) h

/-! ### C7: empty connector scope short-circuits discovery -/

/-- C7: when the fetched catalog yields an empty connector set, `search_tools`
returns an empty result and account-scoped `search_action_names` returns an
empty list, in both cases without issuing a single remote-ranker query (the
recorded ranker-call trace is empty). -/
theorem c7_empty_scope_short_circuit (allTools : List StackOneTool)
    (ranker : Ranker) (iterOrder : List String → List String)
    (toolSearch : Option (String → Nat → ℚ → List String))
    (query : String) (connector : Option String) (top_k : Nat) (min_score : ℚ)
    (fallback_to_local : Bool) (h : getConnectors allTools = []) :
    search_tools allTools ranker iterOrder toolSearch query connector top_k
        min_score fallback_to_local = (.ok [], []) ∧
      search_action_names (some allTools) ranker iterOrder query connector
        top_k min_score = (.ok [], []) := by
  constructor
  · simp [search_tools, h]
  · simp [search_action_names, h]

/-- Witness for C7: an empty catalog (the only way the derived connector set
is empty) short-circuits both entry points even with a ranker that would
error. -/
theorem c7_empty_scope_short_circuit_witness :
    search_tools [] (fun _ => .error ⟨"down"⟩) id none "q" none 10 0 true =
        (.ok [], []) ∧
      search_action_names (some []) (fun _ => .error ⟨"down"⟩) id "q" none 10 0 =
        (.ok [], []) :=
  c7_empty_scope_short_circuit [] (fun _ => .error ⟨"down"⟩) id none "q" none
    10 0 true (by decide)

theorem backfill_congr {r1 r2 : Ranker} {q : String} {m : ℚ} {k : Nat}
    (acc : List SemanticSearchResult) (cs : List String)
    (h : ∀ c ∈ cs, r1 ⟨q, some c, some k⟩ = r2 ⟨q, some c, some k⟩ ∨
      ∃ e resp, r1 ⟨q, some c, some k⟩ = .error e ∧
        r2 ⟨q, some c, some k⟩ = .ok resp ∧ resp.results = []) :
    backfill r1 q m k acc cs = backfill r2 q m k acc cs := by
  induction cs generalizing acc with
  | nil => rfl
  | cons c cs ih =>
    have hrest := fun c2 hc2 => h c2 (List.mem_cons_of_mem _ hc2)
    simp only [backfill]
    split
    · rfl
    · rcases h c (List.mem_cons_self _ _) with heq | ⟨e, resp, he1, he2, hres⟩
      · rw [heq]
        cases hr : r2 ⟨q, some c, some k⟩ with
        | error e2 =>
          dsimp only
          rw [ih _ hrest]
        | ok resp2 =>
          dsimp only
          rw [ih _ hrest]
      · rw [he1, he2]
        dsimp only
        rw [hres]
        simp only [mergeExtra]
        rw [ih _ hrest]

/-! ### C5: error propagation policy -/

/-- C5: a primary ranker error in `search_tools` is re-raised verbatim when
`fallback_to_local` is false and absorbed into an `.ok` result otherwise; a
primary ranker error in `search_action_names` (scoped or not) is absorbed
into an empty `.ok` result; and a per-connector backfill error is swallowed —
a run whose ranker errors on one backfill connector is indistinguishable from
a run whose ranker returns an empty result list for that connector, with the
remaining connectors still processed. -/
theorem c5_error_propagation (allTools : List StackOneTool)
    (iterOrder : List String → List String)
    (toolSearch : Option (String → Nat → ℚ → List String))
    (query : String) (connector : Option String) (top_k : Nat) (min_score : ℚ)
    (fb : Bool) (rA : Ranker) (e : SemanticSearchError) (r1 r2 : Ranker)
    (c : String) (err : SemanticSearchError)
    (hne : getConnectors allTools ≠ [])
    (hfailA : rA ⟨query, connector, none⟩ = .error e)
    (hfailA2 : rA ⟨query, connector, some top_k⟩ = .error e)
    (hsp1 : r1 ⟨query, some c, some top_k⟩ = .error err)
    (hsp2 : r2 ⟨query, some c, some top_k⟩ = .ok ⟨[], 0, query⟩)
    (hagree : ∀ call, call ≠ ⟨query, some c, some top_k⟩ → r1 call = r2 call) :
    (search_tools allTools rA iterOrder toolSearch query connector top_k
        min_score false).1 = .error e ∧
    (∃ l, (search_tools allTools rA iterOrder toolSearch query connector top_k
        min_score true).1 = .ok l) ∧
    (search_action_names (some allTools) rA iterOrder query connector top_k
        min_score).1 = .ok [] ∧
    (search_action_names none rA iterOrder query connector top_k
        min_score).1 = .ok [] ∧
    search_tools allTools r1 iterOrder toolSearch query connector top_k
        min_score fb =
      search_tools allTools r2 iterOrder toolSearch query connector top_k
        min_score fb ∧
    search_action_names (some allTools) r1 iterOrder query connector top_k
        min_score =
      search_action_names (some allTools) r2 iterOrder query connector top_k
        min_score := by
  have hne2 : (getConnectors allTools).isEmpty = false :=
    isEmpty_false_of_ne_nil hne
  have hprim : r1 ⟨query, connector, none⟩ = r2 ⟨query, connector, none⟩ :=
    hagree _ (by simp)
  have hbf : ∀ (acc : List SemanticSearchResult) (cs : List String),
      backfill r1 query min_score top_k acc cs =
        backfill r2 query min_score top_k acc cs := by
    intro acc cs
    apply backfill_congr
    intro c2 hc2
    by_cases hcc : (⟨query, some c2, some top_k⟩ : RankerCall) =
        ⟨query, some c, some top_k⟩
    · rw [hcc]
      exact Or.inr ⟨err, ⟨[], 0, query⟩, hsp1, hsp2, rfl⟩
    · exact Or.inl (hagree _ hcc)
  refine ⟨?_, ?_, ?_, ?_, ?_, ?_⟩
  · simp [search_tools, hne2, hfailA]
  · rcases hres : (search_tools allTools rA iterOrder toolSearch query connector
        top_k min_score true).1 with e2 | l
    · rcases htool : toolSearch with _ | f <;>
        · rw [htool] at hres
          simp [search_tools, hne2, hfailA] at hres
    · exact ⟨l, rfl⟩
  · simp [search_action_names, hne2, hfailA]
  · simp [search_action_names, hfailA2]
  · simp only [search_tools]
    rw [hprim]
    cases hr : r2 ⟨query, connector, none⟩ with
    | error e2 => rfl
    | ok resp => simp only [stScoped, hbf]
  · simp only [search_action_names]
    rw [hprim]
    cases hr : r2 ⟨query, connector, none⟩ with
    | error e2 => rfl
    | ok resp => simp only [sanScoped, hbf]

/-- A two-connector demo catalog (connectors `a` and `b`). -/
def demoTools : List StackOneTool := [⟨"a_x", "", none⟩, ⟨"b_y", "", none⟩]

/-- A ranker whose every call raises. -/
def demoRankerDown : Ranker := fun _ => .error ⟨"boom"⟩

/-- A ranker failing exactly on the backfill call for connector `b`. -/
def demoR1 : Ranker := fun call =>
  if call = ⟨"q", some "b", some 1⟩ then .error ⟨"bf"⟩ else .ok ⟨[], 0, "q"⟩

/-- Like `demoR1` but answering the connector-`b` backfill call with an empty
result list instead of an error. -/
def demoR2 : Ranker := fun call =>
  if call = ⟨"q", some "b", some 1⟩ then .ok ⟨[], 0, "q"⟩ else .ok ⟨[], 0, "q"⟩

/-- Witness for C5: with a ranker that always raises, `search_tools` without
fallback re-raises the very error; and a backfill failure on connector `b` is
observationally identical to that connector returning no results. -/
theorem c5_error_propagation_witness :
    (search_tools demoTools demoRankerDown id none "q" none 1 0 false).1 =
        .error ⟨"boom"⟩ ∧
      search_tools demoTools demoR1 id none "q" none 1 0 true =
        search_tools demoTools demoR2 id none "q" none 1 0 true := by
  have h := c5_error_propagation demoTools id none "q" none 1 0 true
    demoRankerDown ⟨"boom"⟩ demoR1 demoR2 "b" ⟨"bf"⟩ (by decide) rfl rfl rfl rfl
    (by
      intro call h2
      simp [demoR1, demoR2, if_neg h2])
  exact ⟨h.1, h.2.2.2.2.1⟩

deriving instance DecidableEq for Except

/-! ### C3: the result-count budget -/

/-- The rational 9/10, in normalized form so the kernel evaluates it
directly. -/
def q910 : ℚ := ⟨9, 10, by decide, by decide⟩

/-- The rational 8/10, in normalized form. -/
def q810 : ℚ := ⟨4, 5, by decide, by decide⟩

/-- A catalog in which the same tool name was fetched once per account for
two account ids (the per-account fetch loop of `fetch_tools` appends one
tool instance per account). -/
def dupTools : List StackOneTool :=
  [⟨"bamboohr_create_employee", "", some "acc1"⟩,
   ⟨"bamboohr_create_employee", "", some "acc2"⟩]

/-- A ranker whose broad query returns the one action shared by both
account-scoped tool instances. -/
def dupRanker : Ranker := fun call =>
  match call.connector with
  | none => .ok ⟨[⟨"bamboohr_create_employee", "bamboohr", q910, "", ""⟩],
      1, call.query⟩
  | some _ => .ok ⟨[], 0, call.query⟩

/-- C3 (code bug, evaluation at the failing inputs): with `top_k = 1`,
`search_tools` returns two tools on the remote path when the catalog holds
the same tool name once per account (the matched-tools step is never
truncated to `top_k`), and returns the whole two-tool catalog on the
fallback path when the local `tool_search` utility is unavailable — both
violating the documented `top_k` maximum. -/
theorem c3_budget_violation :
    (search_tools dupTools dupRanker id none "q" none 1 0 true).1 =
        .ok dupTools ∧
      1 < dupTools.length ∧
      (search_tools demoTools demoRankerDown id none "q" none 1 0 true).1 =
        .ok demoTools ∧
      1 < demoTools.length := by
  refine ⟨by decide, by decide, by decide, by decide⟩

/-! ### C10: determinism across set-iteration orders -/

/-- A ranker whose broad query is empty and whose per-connector queries
return one distinct, differently-scored action each. -/
def c10Ranker : Ranker := fun call =>
  match call.connector with
  | none => .ok ⟨[], 0, call.query⟩
  | some cc =>
    if cc = "a" then .ok ⟨[⟨"a_x", "a", q910, "", ""⟩], 1, call.query⟩
    else .ok ⟨[⟨"b_y", "b", q810, "", ""⟩], 1, call.query⟩

/-- C10 counterexample: two runs over the same catalog, arguments and fixed
ranker, differing only in the iteration order of the (unordered)
missing-connector set, return different tool lists — the backfill loop stops
early at `top_k`, so which connector got backfilled depends on that order. -/
theorem c10_determinism_counterexample :
    (search_tools demoTools c10Ranker id none "q" none 1 0 true).1 =
        .ok [⟨"a_x", "", none⟩] ∧
      (search_tools demoTools c10Ranker List.reverse none "q" none 1 0
          true).1 = .ok [⟨"b_y", "", none⟩] ∧
      (⟨"a_x", "", none⟩ : StackOneTool) ≠ ⟨"b_y", "", none⟩ :=
  ⟨by decide, by decide, by decide⟩

/-- C10 (amended): `search_tools` (and `search_action_names`) is a pure
function of the catalog, the arguments, the ranker and the set-iteration
order, and when an explicit connector is requested — so the backfill loop
over the unordered missing-connector set is disabled — the result does not
depend on the iteration order at all.  (Without an explicit connector the
backfill loop's early stop makes the result order-dependent, per the
counterexample.) -/
theorem c10_determinism_amended (allTools : List StackOneTool)
    (ranker : Ranker) (ord1 ord2 : List String → List String)
    (toolSearch : Option (String → Nat → ℚ → List String)) (query : String)
    (c : String) (top_k : Nat) (min_score : ℚ) (fb : Bool) :
    search_tools allTools ranker ord1 toolSearch query (some c) top_k
        min_score fb =
      search_tools allTools ranker ord2 toolSearch query (some c) top_k
        min_score fb ∧
    search_action_names (some allTools) ranker ord1 query (some c) top_k
        min_score =
      search_action_names (some allTools) ranker ord2 query (some c) top_k
        min_score := by
  have hst : ∀ results, stScoped (getConnectors allTools) ranker ord1 query
      (some c) top_k min_score results =
        stScoped (getConnectors allTools) ranker ord2 query (some c) top_k
          min_score results := by
    intro results
    simp [stScoped]
  have hsan : ∀ results, sanScoped (getConnectors allTools) ranker ord1 query
      (some c) top_k min_score results =
        sanScoped (getConnectors allTools) ranker ord2 query (some c) top_k
          min_score results := by
    intro results
    simp [sanScoped]
  constructor
  · simp only [search_tools]
    split
    · rfl
    · cases hr : ranker ⟨query, some c, none⟩ with
      | error e => rfl
      | ok resp =>
        dsimp only
        rw [hst]
  · simp only [search_action_names]
    split
    · rfl
    · cases hr : ranker ⟨query, some c, none⟩ with
      | error e => rfl
      | ok resp =>
        dsimp only
        rw [hsan]

/-! ### Membership invariants of the scoped pipelines -/

theorem strLower_mem_fixed {c : String} {ls : List String}
    (h : c ∈ dedupFirst (ls.map strLower)) : strLower c = c := by
  rcases List.mem_map.mp (mem_dedupFirst.mp h) with ⟨a, _, rfl⟩
  exact strLower_strLower a

/-- Everything in the (post-sort) scoped batch of `search_tools` meets the
score floor and stems either from the broad response (connector-filtered) or
from some backfill response. -/
theorem stScoped_mem {available : List String} {ranker : Ranker}
    {iterOrder : List String → List String} {q : String}
    {connector : Option String} {k : Nat} {m : ℚ}
    {results : List SemanticSearchResult} {r : SemanticSearchResult}
    (h : r ∈ (stScoped available ranker iterOrder q connector k m
      results).2.1) :
    m ≤ r.similarity_score ∧
      (r ∈ results ∧ strLower r.connector_key ∈ available ∨
        ∃ c resp2, ranker ⟨q, some c, some k⟩ = Except.ok resp2 ∧
          r ∈ resp2.results) := by
  simp only [stScoped] at h
  split at h
  · have h2 := (sortAsc_perm negScore _).mem_iff.mp h
    rcases backfill_mem h2 with h3 | ⟨c, _, resp2, hresp2, hmem, hsc⟩
    · rcases mem_availFiltered.mp h3 with ⟨h4, h5, h6⟩
      exact ⟨h6, Or.inl ⟨h4, h5⟩⟩
    · exact ⟨hsc, Or.inr ⟨c, resp2, hresp2, hmem⟩⟩
  · rcases mem_availFiltered.mp h with ⟨h4, h5, h6⟩
    exact ⟨h6, Or.inl ⟨h4, h5⟩⟩

/-- Everything in the (post-sort) scoped batch of `search_action_names`
meets the score floor and stems either from the broad response or from some
backfill response. -/
theorem sanScoped_mem {available : List String} {ranker : Ranker}
    {iterOrder : List String → List String} {q : String}
    {connector : Option String} {k : Nat} {m : ℚ}
    {results : List SemanticSearchResult} {r : SemanticSearchResult}
    (h : r ∈ (sanScoped available ranker iterOrder q connector k m
      results).2.1) :
    m ≤ r.similarity_score ∧
      (r ∈ results ∧ strLower r.connector_key ∈
          dedupFirst (available.map strLower) ∨
        ∃ c resp2, ranker ⟨q, some c, some k⟩ = Except.ok resp2 ∧
          r ∈ resp2.results) := by
  simp only [sanScoped] at h
  split at h
  · have h2 := (sortAsc_perm negScore _).mem_iff.mp h
    rcases backfill_mem h2 with h3 | ⟨c, _, resp2, hresp2, hmem, hsc⟩
    · rcases mem_sanResults1.mp h3 with ⟨h4, h5, h6⟩
      exact ⟨h5, Or.inl ⟨h4, h6⟩⟩
    · exact ⟨hsc, Or.inr ⟨c, resp2, hresp2, hmem⟩⟩
  · rcases mem_sanResults1.mp h with ⟨h4, h5, h6⟩
    exact ⟨h5, Or.inl ⟨h4, h6⟩⟩

/-- When the ranker honours the requested connector filter in its
connector-restricted responses, everything in the scoped
`search_action_names` batch carries a connector from the derived connector
set — the backfill loop only requests connectors drawn from that set. -/
theorem sanScoped_mem_connector {available : List String} {ranker : Ranker}
    {iterOrder : List String → List String} {q : String}
    {connector : Option String} {k : Nat} {m : ℚ}
    {results : List SemanticSearchResult} {r : SemanticSearchResult}
    (hIter : ∀ ls c, c ∈ iterOrder ls → c ∈ ls)
    (hConn : ∀ c k2 resp rr, ranker ⟨q, some c, k2⟩ = Except.ok resp →
      rr ∈ resp.results → strLower rr.connector_key = strLower c)
    (h : r ∈ (sanScoped available ranker iterOrder q connector k m
      results).2.1) :
    strLower r.connector_key ∈ dedupFirst (available.map strLower) := by
  simp only [sanScoped] at h
  split at h
  · have h2 := (sortAsc_perm negScore _).mem_iff.mp h
    rcases backfill_mem h2 with h3 | ⟨c, hc, resp2, hresp2, hmem, hsc⟩
    · exact (mem_sanResults1.mp h3).2.2
    · have hcm := hIter _ _ hc
      have hcset : c ∈ dedupFirst (available.map strLower) :=
        List.mem_of_mem_filter hcm
      rw [hConn c (some k) resp2 r hresp2 hmem]
      rw [strLower_mem_fixed hcset]
      exact hcset
  · exact (mem_sanResults1.mp h).2.2

/-- Every tool returned by `search_tools` — on the remote path, the local
fallback path, and the no-utility fallback branch alike — is drawn from the
fetched catalog. -/
theorem search_tools_mem_catalog {allTools : List StackOneTool}
    {ranker : Ranker} {iterOrder : List String → List String}
    {toolSearch : Option (String → Nat → ℚ → List String)} {query : String}
    {connector : Option String} {top_k : Nat} {min_score : ℚ} {fb : Bool}
    {l : List StackOneTool} {t : StackOneTool}
    (hl : (search_tools allTools ranker iterOrder toolSearch query connector
      top_k min_score fb).1 = .ok l)
    (ht : t ∈ l) : t ∈ allTools := by
  revert hl
  simp only [search_tools]
  split
  · intro hl
    injection hl with h
    subst h
    simp at ht
  · cases hr : ranker ⟨query, connector, none⟩ with
    | error e =>
      dsimp only
      split
      · intro hl
        simp at hl
      · cases htool : toolSearch with
        | none =>
          intro hl
          injection hl with h
          subst h
          exact ht
        | some f =>
          dsimp only
          intro hl
          injection hl with h
          subst h
          have ht2 := List.mem_of_mem_take ht
          rcases List.mem_filterMap.mp ht2 with ⟨n, _, hfn⟩
          revert hfn
          split
          · intro hfn
            exact List.mem_reverse.mp (List.mem_of_find?_eq_some hfn)
          · intro hfn
            simp at hfn
    | ok resp =>
      dsimp only
      split
      · intro hl
        injection hl with h
        subst h
        simp at ht
      · intro hl
        injection hl with h
        subst h
        have ht2 := (sortAsc_perm _ _).mem_iff.mp ht
        exact List.mem_of_mem_filter ht2

/-! ### C1: the connector-scope invariant -/

/-- A ranker whose connector-restricted responses carry a connector key
(`Z`) different from the requested connector. -/
def c1RogueRanker : Ranker := fun call =>
  match call.connector with
  | none => .ok ⟨[], 0, call.query⟩
  | some cc => .ok ⟨[⟨"zact_" ++ cc, "Z", 1, "", ""⟩], 1, call.query⟩

/-- C1 counterexample: the per-connector backfill loop of
`search_action_names` appends score-qualifying results without re-checking
their connector, so a backfill response whose `connector_key` differs from
the requested connector yields returned results whose connector (`z`) is
outside the derived connector set (`{a, b}`). -/
theorem c1_scope_counterexample :
    (search_action_names (some demoTools) c1RogueRanker id "q" none 10 0).1 =
        .ok [⟨"zact_a", "Z", 1, "", ""⟩, ⟨"zact_b", "Z", 1, "", ""⟩] ∧
      strLower "Z" ∉ dedupFirst ((getConnectors demoTools).map strLower) :=
  ⟨by decide, by decide⟩

/-- C1 (amended): every tool returned by `search_tools` carries a connector
from the connector set derived from the fetched catalog, for every ranker
behaviour (returned tools are always drawn from the catalog itself); and
every result returned by account-scoped `search_action_names` carries a
connector from that set provided each connector-restricted ranker response
only contains results whose lowercased `connector_key` equals the requested
connector (the backfill loop itself does not re-check connectors). -/
theorem c1_scope_invariant_amended (allTools : List StackOneTool)
    (ranker : Ranker) (iterOrder : List String → List String)
    (toolSearch : Option (String → Nat → ℚ → List String)) (query : String)
    (connector : Option String) (top_k : Nat) (min_score : ℚ) (fb : Bool)
    (hIter : ∀ ls c, c ∈ iterOrder ls → c ∈ ls)
    (hConn : ∀ c k2 resp rr, ranker ⟨query, some c, k2⟩ = Except.ok resp →
      rr ∈ resp.results → strLower rr.connector_key = strLower c) :
    (∀ l t, (search_tools allTools ranker iterOrder toolSearch query connector
        top_k min_score fb).1 = .ok l → t ∈ l →
      connectorOf t.name ∈ getConnectors allTools) ∧
    (∀ l r, (search_action_names (some allTools) ranker iterOrder query
        connector top_k min_score).1 = .ok l → r ∈ l →
      strLower r.connector_key ∈
        dedupFirst ((getConnectors allTools).map strLower)) := by
  constructor
  · intro l t hl ht
    have hmem := search_tools_mem_catalog hl ht
    exact mem_dedupFirst.mpr (List.mem_map_of_mem _ hmem)
  · intro l r hl hr
    revert hl
    simp only [search_action_names]
    split
    · intro hl
      injection hl with h
      subst h
      simp at hr
    · cases hresp : ranker ⟨query, connector, none⟩ with
      | error e =>
        intro hl
        injection hl with h
        subst h
        simp at hr
      | ok resp =>
        dsimp only
        intro hl
        injection hl with h
        subst h
        have hr2 := List.mem_of_mem_take hr
        have hr3 := (dedupReplace_sublist [] _).mem hr2
        rcases List.mem_map.mp hr3 with ⟨r0, hr0, rfl⟩
        have := sanScoped_mem_connector hIter hConn hr0
        exact this

/-- A ranker whose connector-restricted responses honour the requested
connector and name actions present in the demo catalog. -/
def c1HonestRanker : Ranker := fun call =>
  match call.connector with
  | none => .ok ⟨[], 0, call.query⟩
  | some cc =>
    if cc = "a" then .ok ⟨[⟨"a_x", "a", 1, "", ""⟩], 1, call.query⟩
    else .ok ⟨[⟨"b_y", cc, 1, "", ""⟩], 1, call.query⟩

/-- Witness for C1 (amended): a concrete scoped run with an honest ranker —
the first returned tool's connector and the first returned action's
lowercased connector key are both in the demo catalog's connector set. -/
theorem c1_scope_invariant_amended_witness :
    connectorOf "a_x" ∈ getConnectors demoTools ∧
      strLower "a" ∈ dedupFirst ((getConnectors demoTools).map strLower) := by
  have hIter : ∀ ls c, c ∈ (id : List String → List String) ls → c ∈ ls :=
    fun _ _ h => h
  have hConn : ∀ c k2 resp rr,
      c1HonestRanker ⟨"q", some c, k2⟩ = Except.ok resp →
      rr ∈ resp.results → strLower rr.connector_key = strLower c := by
    intro c k2 resp rr h hm
    by_cases hc : c = "a"
    · subst hc
      simp only [c1HonestRanker, if_pos rfl] at h
      injection h with h2
      subst h2
      simp only [List.mem_singleton] at hm
      subst hm
      rfl
    · simp only [c1HonestRanker, if_neg hc] at h
      injection h with h2
      subst h2
      simp only [List.mem_singleton] at hm
      subst hm
      rfl
  have h := c1_scope_invariant_amended demoTools c1HonestRanker id none "q"
    none 10 0 true hIter hConn
  constructor
  · exact h.1 [⟨"a_x", "", none⟩, ⟨"b_y", "", none⟩] ⟨"a_x", "", none⟩
      (by decide) (by decide)
  · exact h.2 [⟨"a_x", "a", 1, "", ""⟩, ⟨"b_y", "b", 1, "", ""⟩]
      ⟨"a_x", "a", 1, "", ""⟩ (by decide) (by decide)

theorem sortAsc_map_nodup {α β γ : Type} [LinearOrder β] (k : α → β)
    (f : α → γ) {l : List α} (h : (l.map f).Nodup) :
    ((sortAsc k l).map f).Nodup :=
  (((sortAsc_perm k l).map f).nodup_iff).mpr h

/-! ### C2: the dedup invariant -/

/-- A ranker returning two distinct action names that both normalize — after
the one normalization pass the code applies — to names that a second
normalization pass collapses. -/
def c2Ranker : Ranker := fun call =>
  .ok ⟨[⟨"a_1.0_a_1.0_b_global_global", "a", q910, "", ""⟩,
        ⟨"c_2.0_b_global", "c", q810, "", ""⟩], 2, call.query⟩

/-- C2 counterexample: `search_action_names` returns two results whose
(once-normalized, as returned) names are distinct but normalize to the same
name, so the set of normalized returned names has cardinality 1 while the
result list has length 2. -/
theorem c2_dedup_counterexample :
    (search_action_names none c2Ranker id "q" none 10 0).1 =
        .ok [⟨"a_1.0_b_global", "a", q910, "", ""⟩, ⟨"b", "c", q810, "", ""⟩] ∧
      ([⟨"a_1.0_b_global", "a", q910, "", ""⟩,
          ⟨"b", "c", q810, "", ""⟩] : List SemanticSearchResult).length = 2 ∧
      (dedupFirst (([⟨"a_1.0_b_global", "a", q910, "", ""⟩,
          ⟨"b", "c", q810, "", ""⟩] : List SemanticSearchResult).map
        (fun r => normalize_action_name r.action_name))).length = 1 :=
  ⟨by decide, by decide, by decide⟩

/-- C2 (amended): the names of the results returned by
`search_action_names` (which the method already normalized once) are
pairwise distinct; and on the remote path of `search_tools` (primary query
succeeded) the returned tool names are pairwise distinct whenever the
fetched catalog's tool names are — re-normalizing the returned names, or a
catalog holding the same tool name once per account, can still collide, per
the counterexample and C3. -/
theorem c2_dedup_invariant_amended (scope : Option (List StackOneTool))
    (allTools : List StackOneTool) (ranker : Ranker)
    (iterOrder : List String → List String)
    (toolSearch : Option (String → Nat → ℚ → List String)) (query : String)
    (connector : Option String) (top_k : Nat) (min_score : ℚ) (fb : Bool) :
    (∀ l, (search_action_names scope ranker iterOrder query connector top_k
        min_score).1 = .ok l → (l.map (fun r => r.action_name)).Nodup) ∧
    ((allTools.map (fun t => t.name)).Nodup →
      ∀ resp, ranker ⟨query, connector, none⟩ = Except.ok resp →
      ∀ l, (search_tools allTools ranker iterOrder toolSearch query connector
        top_k min_score fb).1 = .ok l →
      (l.map (fun t => t.name)).Nodup) := by
  constructor
  · intro l hl
    have hnodup : ∀ (st : List SemanticSearchResult),
        (((dedupReplace [] st).take top_k).map
          (fun r => r.action_name)).Nodup := by
      intro st
      rw [List.map_take]
      exact ((dedupReplace_names_nodup [] st).1).sublist (List.take_sublist _ _)
    revert hl
    simp only [search_action_names]
    rcases scope with _ | tools
    · cases hresp : ranker ⟨query, connector, some top_k⟩ with
      | error e =>
        intro hl
        injection hl with h
        subst h
        simp
      | ok resp =>
        dsimp only
        intro hl
        injection hl with h
        subst h
        exact hnodup _
    · dsimp only
      split
      · intro hl
        injection hl with h
        subst h
        simp
      · cases hresp : ranker ⟨query, connector, none⟩ with
        | error e =>
          intro hl
          injection hl with h
          subst h
          simp
        | ok resp =>
          dsimp only
          intro hl
          injection hl with h
          subst h
          exact hnodup _
  · intro hcat resp hresp l hl
    revert hl
    simp only [search_tools]
    split
    · intro hl
      injection hl with h
      subst h
      simp
    · rw [hresp]
      dsimp only
      split
      · intro hl
        injection hl with h
        subst h
        simp
      · intro hl
        injection hl with h
        subst h
        exact sortAsc_map_nodup _ _
          (hcat.sublist ((List.filter_sublist _).map _))

/-- Witness for C2 (amended): concrete runs — the lightweight search's
returned names and the remote-path tool names are duplicate-free. -/
theorem c2_dedup_invariant_amended_witness :
    (([⟨"a_1.0_b_global", "a", q910, "", ""⟩,
        ⟨"b", "c", q810, "", ""⟩] : List SemanticSearchResult).map
      (fun r => r.action_name)).Nodup ∧
    (([⟨"a_x", "", none⟩,
        ⟨"b_y", "", none⟩] : List StackOneTool).map
      (fun t => t.name)).Nodup :=
  ⟨(c2_dedup_invariant_amended none demoTools c2Ranker id none "q" none 10 0
      true).1 _ (by decide),
   (c2_dedup_invariant_amended none demoTools c1HonestRanker id none "q" none
      10 0 true).2 (by decide) ⟨[], 0, "q"⟩ rfl _ (by decide)⟩

/-! ### C8: the score floor -/

/-- C8: every result returned by `search_action_names` meets the `min_score`
floor; every tool returned by `search_tools` on the remote path owes its
inclusion to a semantic result meeting the floor (from the broad response or
a backfill response) whose normalized action name is the tool's name; and
the client convenience method `search_action_names` returns exactly the
action names of response results meeting the floor, in response order. -/
theorem c8_score_floor (scope : Option (List StackOneTool))
    (allTools : List StackOneTool) (ranker : Ranker)
    (iterOrder : List String → List String)
    (toolSearch : Option (String → Nat → ℚ → List String)) (query : String)
    (connector : Option String) (top_k : Nat) (min_score : ℚ) (fb : Bool) :
    (∀ l r, (search_action_names scope ranker iterOrder query connector top_k
        min_score).1 = .ok l → r ∈ l → min_score ≤ r.similarity_score) ∧
    (∀ resp, ranker ⟨query, connector, none⟩ = Except.ok resp →
      ∀ l t, (search_tools allTools ranker iterOrder toolSearch query
        connector top_k min_score fb).1 = .ok l → t ∈ l →
      ∃ r0, min_score ≤ r0.similarity_score ∧
        normalize_action_name r0.action_name = t.name ∧
        (r0 ∈ resp.results ∨ ∃ c resp2,
          ranker ⟨query, some c, some top_k⟩ = Except.ok resp2 ∧
            r0 ∈ resp2.results)) ∧
    (∀ q2 c2 k2 m2 resp2, ranker ⟨q2, c2, k2⟩ = Except.ok resp2 →
      client_search_action_names ranker q2 c2 k2 m2 =
        .ok ((resp2.results.filter
          (fun r => decide (m2 ≤ r.similarity_score))).map
          (fun r => r.action_name))) := by
  refine ⟨?_, ?_, ?_⟩
  · intro l r hl hr
    have hDR : ∀ (st : List SemanticSearchResult),
        r ∈ (dedupReplace [] st).take top_k →
        ∃ r0 ∈ st, r.similarity_score = r0.similarity_score := by
      intro st hmem
      have h2 := (dedupReplace_sublist [] st).mem (List.mem_of_mem_take hmem)
      rcases List.mem_map.mp h2 with ⟨r0, hr0, rfl⟩
      exact ⟨r0, hr0, rfl⟩
    revert hl
    simp only [search_action_names]
    rcases scope with _ | tools
    · cases hresp : ranker ⟨query, connector, some top_k⟩ with
      | error e =>
        intro hl
        injection hl with h
        subst h
        simp at hr
      | ok resp =>
        dsimp only
        intro hl
        injection hl with h
        subst h
        rcases hDR _ hr with ⟨r0, hr0, hsc⟩
        rw [hsc]
        exact (mem_scoreFiltered.mp hr0).2
    · dsimp only
      split
      · intro hl
        injection hl with h
        subst h
        simp at hr
      · cases hresp : ranker ⟨query, connector, none⟩ with
        | error e =>
          intro hl
          injection hl with h
          subst h
          simp at hr
        | ok resp =>
          dsimp only
          intro hl
          injection hl with h
          subst h
          rcases hDR _ hr with ⟨r0, hr0, hsc⟩
          rw [hsc]
          exact (sanScoped_mem hr0).1
  · intro resp hresp l t hl ht
    revert hl
    simp only [search_tools]
    split
    · intro hl
      injection hl with h
      subst h
      simp at ht
    · rw [hresp]
      dsimp only
      split
      · intro hl
        injection hl with h
        subst h
        simp at ht
      · intro hl
        injection hl with h
        subst h
        have ht2 := (sortAsc_perm _ _).mem_iff.mp ht
        have ht3 := (List.mem_filter.mp ht2).2
        have ht4 := of_decide_eq_true ht3
        rcases List.mem_map.mp ht4 with ⟨r0, hr0, hname⟩
        have hr0b := (dedupByNorm_sublist [] _).mem (List.mem_of_mem_take hr0)
        rcases stScoped_mem hr0b with ⟨hsc, hsrc⟩
        refine ⟨r0, hsc, hname, ?_⟩
        rcases hsrc with ⟨h5, _⟩ | h5
        · exact Or.inl h5
        · exact Or.inr h5
  · intro q2 c2 k2 m2 resp2 hresp2
    simp only [client_search_action_names, hresp2]

/-- Witness for C8: a concrete lightweight run's top result meets the floor,
and the client convenience method evaluated on a concrete response returns
exactly the floor-meeting names in order. -/
theorem c8_score_floor_witness :
    (0 : ℚ) ≤ q910 ∧
      client_search_action_names c2Ranker "q" none none 0 =
        .ok ["a_1.0_a_1.0_b_global_global", "c_2.0_b_global"] := by
  have h := c8_score_floor none demoTools c2Ranker id none "q" none 10 0 true
  constructor
  · exact h.1 [⟨"a_1.0_b_global", "a", q910, "", ""⟩,
      ⟨"b", "c", q810, "", ""⟩] ⟨"a_1.0_b_global", "a", q910, "", ""⟩
      (by decide) (by decide)
  · rw [h.2.2 "q" none none 0 ⟨[⟨"a_1.0_a_1.0_b_global_global", "a", q910,
      "", ""⟩, ⟨"c_2.0_b_global", "c", q810, "", ""⟩], 2, "q"⟩ rfl]
    decide

/-! ### C9: the two-phase query-size policy -/

/-- C9: in an account-scoped `search_action_names` call with a non-empty
derived connector set, the first remote query is a single broad query with
`top_k=None` (the service's maximum/default batch size, not the caller's
`top_k`), and a second ranker call happens only if the broad batch, after
the score and connector filters, still holds fewer than `top_k` results
(and no explicit connector was requested). -/
theorem c9_two_phase_policy (allTools : List StackOneTool) (ranker : Ranker)
    (iterOrder : List String → List String) (query : String)
    (connector : Option String) (top_k : Nat) (min_score : ℚ)
    (hne : getConnectors allTools ≠ []) :
    (search_action_names (some allTools) ranker iterOrder query connector
        top_k min_score).2.head? = some ⟨query, connector, none⟩ ∧
    (∀ resp, ranker ⟨query, connector, none⟩ = Except.ok resp →
      1 < (search_action_names (some allTools) ranker iterOrder query
        connector top_k min_score).2.length →
      connector = none ∧
        (sanResults1 (dedupFirst ((getConnectors allTools).map strLower))
          min_score resp.results).length < top_k) := by
  have hne2 := isEmpty_false_of_ne_nil hne
  constructor
  · simp only [search_action_names, hne2, Bool.false_eq_true, if_false]
    cases hr : ranker ⟨query, connector, none⟩ <;> simp
  · intro resp hresp
    simp only [search_action_names, hne2, Bool.false_eq_true, if_false,
      hresp]
    simp only [List.length_cons]
    intro hlen
    have hbf : (sanScoped (getConnectors allTools) ranker iterOrder query
        connector top_k min_score resp.results).2.2 ≠ [] := by
      intro he
      rw [he] at hlen
      simp at hlen
    revert hbf
    simp only [sanScoped]
    split
    · rename_i hcond
      intro _
      rcases (Bool.and_eq_true _ _).mp hcond with ⟨h1, h2⟩
      exact ⟨Option.isNone_iff_eq_none.mp h2, of_decide_eq_true h1⟩
    · intro hbf
      exact absurd rfl hbf

/-- Witness for C9: a concrete scoped run whose broad batch is empty — the
first recorded call carries `top_k = none` and the filtered broad batch is
short of `top_k`. -/
theorem c9_two_phase_policy_witness :
    (search_action_names (some demoTools) c1HonestRanker id "q" none 10
        0).2.head? = some ⟨"q", none, none⟩ ∧
      (sanResults1 (dedupFirst ((getConnectors demoTools).map strLower)) 0
        ([] : List SemanticSearchResult)).length < 10 := by
  have h := c9_two_phase_policy demoTools c1HonestRanker id "q" none 10 0
    (by decide)
  exact ⟨h.1, (h.2 ⟨[], 0, "q"⟩ rfl (by decide)).2⟩

/-! ### Ordering and stability of the scoped stages -/

/-- Non-increasing similarity scores, the order the spec requires of result
lists. -/
def ScoreSorted (l : List SemanticSearchResult) : Prop :=
  l.Pairwise (fun a b => b.similarity_score ≤ a.similarity_score)

theorem scoreSorted_of_sortAsc (l : List SemanticSearchResult) :
    ScoreSorted (sortAsc negScore l) := by
  refine (sortAsc_pairwise negScore l).imp ?_
  intro a b h
  exact neg_le_neg_iff.mp h

theorem stScoped_sorted {available : List String} {ranker : Ranker}
    {iterOrder : List String → List String} {q : String}
    {connector : Option String} {k : Nat} {m : ℚ}
    {results : List SemanticSearchResult} (h : ScoreSorted results) :
    ScoreSorted (stScoped available ranker iterOrder q connector k m
      results).2.1 := by
  simp only [stScoped]
  split
  · exact scoreSorted_of_sortAsc _
  · exact h.sublist (List.filter_sublist _)

theorem sanScoped_sorted {available : List String} {ranker : Ranker}
    {iterOrder : List String → List String} {q : String}
    {connector : Option String} {k : Nat} {m : ℚ}
    {results : List SemanticSearchResult} (h : ScoreSorted results) :
    ScoreSorted (sanScoped available ranker iterOrder q connector k m
      results).2.1 := by
  simp only [sanScoped, sanResults1]
  split
  · exact scoreSorted_of_sortAsc _
  · exact h.sublist ((List.filter_sublist _).trans (List.filter_sublist _))

/-- The conditional re-sort is stable: restricted to any one score class,
the sorted batch lists exactly the merged batch's members in first-seen
order. -/
theorem stScoped_stable (available : List String) (ranker : Ranker)
    (iterOrder : List String → List String) (q : String)
    (connector : Option String) (k : Nat) (m : ℚ)
    (results : List SemanticSearchResult) (s : ℚ) :
    ((stScoped available ranker iterOrder q connector k m results).2.1).filter
        (fun r => decide (r.similarity_score = s)) =
      ((stScoped available ranker iterOrder q connector k m
          results).1).filter (fun r => decide (r.similarity_score = s)) := by
  simp only [stScoped]
  split
  · refine sortAsc_filter _ _ ?_
    intro a b ha hb
    simp only [negScore, of_decide_eq_true ha, of_decide_eq_true hb]
  · rfl

theorem sanScoped_stable (available : List String) (ranker : Ranker)
    (iterOrder : List String → List String) (q : String)
    (connector : Option String) (k : Nat) (m : ℚ)
    (results : List SemanticSearchResult) (s : ℚ) :
    ((sanScoped available ranker iterOrder q connector k m
        results).2.1).filter (fun r => decide (r.similarity_score = s)) =
      ((sanScoped available ranker iterOrder q connector k m
          results).1).filter (fun r => decide (r.similarity_score = s)) := by
  simp only [sanScoped]
  split
  · refine sortAsc_filter _ _ ?_
    intro a b ha hb
    simp only [negScore, of_decide_eq_true ha, of_decide_eq_true hb]
  · rfl

/-- `search_action_names` output is, elementwise, a name-normalized sublist
of the (post-sort) batch. -/
theorem dedupReplace_take_sublist (st : List SemanticSearchResult)
    (k : Nat) : ((dedupReplace [] st).take k).Sublist (st.map normResult) :=
  (List.take_sublist _ _).trans (dedupReplace_sublist [] st)

/-- The deduplicated, truncated semantic batch that orders `search_tools`
results (steps "Deduplicate" and "action_order" of the source). -/
def stDeduped (allTools : List StackOneTool) (ranker : Ranker)
    (iterOrder : List String → List String) (query : String)
    (connector : Option String) (top_k : Nat) (min_score : ℚ)
    (results : List SemanticSearchResult) : List SemanticSearchResult :=
  (dedupByNorm [] (stScoped (getConnectors allTools) ranker iterOrder query
    connector top_k min_score results).2.1).take top_k

/-! ### C4: ordering and stable tie-breaking -/

/-- C4: assuming every individual ranker response is ordered by
non-increasing score, (a) scoped and (b) unscoped `search_action_names`
results are ordered by non-increasing score; (c) restricted to any one score
class, the scoped output lists (name-normalized) members of the merged
broad-plus-backfill batch in first-seen order, and (d) the unscoped output
is a name-normalized sublist of the filtered response (response order);
(e) the semantic batch that orders `search_tools` results is itself sorted by
non-increasing score and, per score class, in merged-batch first-seen order,
and (f) the returned tools are sorted by non-decreasing rank in that
batch. -/
theorem c4_ordering_stability (allTools : List StackOneTool) (ranker : Ranker)
    (iterOrder : List String → List String)
    (toolSearch : Option (String → Nat → ℚ → List String)) (query : String)
    (connector : Option String) (top_k : Nat) (min_score : ℚ) (fb : Bool)
    (hresp : ∀ call resp, ranker call = Except.ok resp →
      ScoreSorted resp.results) :
    (∀ l, (search_action_names (some allTools) ranker iterOrder query
        connector top_k min_score).1 = .ok l → ScoreSorted l) ∧
    (∀ l, (search_action_names none ranker iterOrder query connector top_k
        min_score).1 = .ok l → ScoreSorted l) ∧
    (∀ resp l s, ranker ⟨query, connector, none⟩ = Except.ok resp →
      (search_action_names (some allTools) ranker iterOrder query connector
        top_k min_score).1 = .ok l →
      (l.filter (fun r => decide (r.similarity_score = s))).Sublist
        (((sanScoped (getConnectors allTools) ranker iterOrder query connector
          top_k min_score resp.results).1.map normResult).filter
          (fun r => decide (r.similarity_score = s)))) ∧
    (∀ resp l, ranker ⟨query, connector, some top_k⟩ = Except.ok resp →
      (search_action_names none ranker iterOrder query connector top_k
        min_score).1 = .ok l →
      l.Sublist ((scoreFiltered min_score resp.results).map normResult)) ∧
    (∀ resp, ranker ⟨query, connector, none⟩ = Except.ok resp →
      ScoreSorted (stDeduped allTools ranker iterOrder query connector top_k
        min_score resp.results) ∧
      ∀ s, ((stDeduped allTools ranker iterOrder query connector top_k
          min_score resp.results).filter
          (fun r => decide (r.similarity_score = s))).Sublist
        (((stScoped (getConnectors allTools) ranker iterOrder query connector
          top_k min_score resp.results).1).filter
          (fun r => decide (r.similarity_score = s)))) ∧
    (∀ resp l, ranker ⟨query, connector, none⟩ = Except.ok resp →
      (search_tools allTools ranker iterOrder toolSearch query connector
        top_k min_score fb).1 = .ok l →
      l.Pairwise (fun t1 t2 =>
        toolRank ((stDeduped allTools ranker iterOrder query connector top_k
          min_score resp.results).map
          (fun r => normalize_action_name r.action_name)) t1 ≤
        toolRank ((stDeduped allTools ranker iterOrder query connector top_k
          min_score resp.results).map
          (fun r => normalize_action_name r.action_name)) t2)) := by
  have houtSorted : ∀ st : List SemanticSearchResult, ScoreSorted st →
      ScoreSorted ((dedupReplace [] st).take top_k) := by
    intro st hst
    have h1 : ScoreSorted (st.map normResult) := List.pairwise_map.mpr hst
    exact h1.sublist (dedupReplace_take_sublist st top_k)
  refine ⟨?_, ?_, ?_, ?_, ?_, ?_⟩
  · intro l hl
    revert hl
    simp only [search_action_names]
    split
    · intro hl
      injection hl with h
      subst h
      exact List.Pairwise.nil
    · cases hr : ranker ⟨query, connector, none⟩ with
      | error e =>
        intro hl
        injection hl with h
        subst h
        exact List.Pairwise.nil
      | ok resp =>
        dsimp only
        intro hl
        injection hl with h
        subst h
        exact houtSorted _ (sanScoped_sorted (hresp _ _ hr))
  · intro l hl
    revert hl
    simp only [search_action_names]
    cases hr : ranker ⟨query, connector, some top_k⟩ with
    | error e =>
      intro hl
      injection hl with h
      subst h
      exact List.Pairwise.nil
    | ok resp =>
      dsimp only
      intro hl
      injection hl with h
      subst h
      exact houtSorted _ ((hresp _ _ hr).sublist (List.filter_sublist _))
  · intro resp l s hr hl
    revert hl
    simp only [search_action_names]
    split
    · intro hl
      injection hl with h
      subst h
      exact List.nil_sublist _
    · rw [hr]
      dsimp only
      intro hl
      injection hl with h
      subst h
      have h1 := (dedupReplace_take_sublist (sanScoped (getConnectors
        allTools) ranker iterOrder query connector top_k min_score
        resp.results).2.1 top_k).filter
        (fun r => decide (r.similarity_score = s))
      have h2 : (((sanScoped (getConnectors allTools) ranker iterOrder query
          connector top_k min_score resp.results).2.1).map
            normResult).filter (fun r => decide (r.similarity_score = s)) =
          (((sanScoped (getConnectors allTools) ranker iterOrder query
            connector top_k min_score resp.results).1).map
            normResult).filter (fun r => decide (r.similarity_score = s)) := by
        rw [List.filter_map, List.filter_map]
        exact congrArg _ (sanScoped_stable _ _ _ _ _ _ _ _ s)
      exact h2 ▸ h1
  · intro resp l hr hl
    revert hl
    simp only [search_action_names]
    rw [hr]
    dsimp only
    intro hl
    injection hl with h
    subst h
    exact dedupReplace_take_sublist _ _
  · intro resp hr
    constructor
    · exact (stScoped_sorted (hresp _ _ hr)).sublist
        ((List.take_sublist _ _).trans (dedupByNorm_sublist _ _))
    · intro s
      have h1 := ((List.take_sublist top_k (dedupByNorm [] (stScoped
        (getConnectors allTools) ranker iterOrder query connector top_k
        min_score resp.results).2.1)).trans
        (dedupByNorm_sublist _ _)).filter
        (fun r => decide (r.similarity_score = s))
      exact (stScoped_stable (getConnectors allTools) ranker iterOrder query
        connector top_k min_score resp.results s) ▸ h1
  · intro resp l hr hl
    revert hl
    simp only [search_tools]
    split
    · intro hl
      injection hl with h
      subst h
      exact List.Pairwise.nil
    · rw [hr]
      dsimp only
      split
      · intro hl
        injection hl with h
        subst h
        exact List.Pairwise.nil
      · intro hl
        injection hl with h
        subst h
        exact sortAsc_pairwise _ _

/-- Witness for C4: with a ranker whose (constant) response is sorted by
non-increasing score, a concrete unscoped run's output is score-sorted and
is a name-normalized sublist of the score-filtered response. -/
theorem c4_ordering_stability_witness :
    ScoreSorted [⟨"a_1.0_b_global", "a", q910, "", ""⟩,
        ⟨"b", "c", q810, "", ""⟩] ∧
      ([⟨"a_1.0_b_global", "a", q910, "", ""⟩,
          ⟨"b", "c", q810, "", ""⟩] : List SemanticSearchResult).Sublist
        ((scoreFiltered 0 [⟨"a_1.0_a_1.0_b_global_global", "a", q910, "", ""⟩,
          ⟨"c_2.0_b_global", "c", q810, "", ""⟩]).map normResult) := by
  have hresp : ∀ call resp, c2Ranker call = Except.ok resp →
      ScoreSorted resp.results := by
    intro call resp h
    cases h
    refine List.pairwise_cons.mpr ⟨?_, ?_⟩
    · intro b hb
      simp only [List.mem_singleton] at hb
      subst hb
      decide
    · simp
  have h := c4_ordering_stability demoTools c2Ranker id none "q" none 10 0
    true hresp
  constructor
  · exact h.2.1 _ (by decide)
  · exact h.2.2.2.1 ⟨[⟨"a_1.0_a_1.0_b_global_global", "a", q910, "", ""⟩,
      ⟨"c_2.0_b_global", "c", q810, "", ""⟩], 2, "q"⟩ _ rfl (by decide)

end StackOneAI
